import Mathlib

/-!
Verification of the repetition-code decoding and statistics core of
`tutorial/sections/repetitioncode/Repetition_Code.ipynb`.

Python dictionaries mapping bit-strings to probabilities are embedded as
association lists `List (String × ℚ)`: a dict never has duplicate keys;
updating an existing key keeps its position and inserting a new key
appends it at the end, which is exactly what the recursive update below
does. Probabilities are exact rationals (the source works with floats,
but every claim here is about the exact arithmetic the spec describes).
-/

namespace RepetitionCode

/-- A results dictionary: bit-string keys mapped to probabilities. -/
abbrev Dist : Type := List (String × ℚ)

/-- Sum of all stored values of a results dictionary. -/
def distSum (results : Dist) : ℚ :=
  (results.map (fun p => p.2)).sum

/-- Dictionary lookup: value stored at `string`, if the key is present
(`results[string]` in Python, `none` standing for a KeyError).  On the
association list this returns the value of the first entry whose key is
`string`. -/
def lookupD : Dist → String → Option ℚ
  | [], _ => none
  | p :: rest, string => if p.1 = string then some p.2 else lookupD rest string

/-- `AddProbToResults(prob, string, results)` from the source:
if `string` is not among the keys the entry is initialized to `0`,
then `prob` is added to it.  On the association list this updates the
first entry with key `string` in place and otherwise appends
`(string, 0 + prob)` at the end, matching dict-update semantics. -/
def AddProbToResults (prob : ℚ) (string : String) : Dist → Dist
  | [] => [(string, 0 + prob)]
  | p :: rest =>
      if p.1 = string then (p.1, p.2 + prob) :: rest
      else p :: AddProbToResults prob string rest

/-- `CalculateError(bit, results)` from the source.  `results` is a pair of
dictionaries indexed by the encoded bit; iterating over the keys of
`results[bit]` and reading `results[bit][string]` is iterating over the
entries of the association list.  `wrong` is `results[(bit+1)%2][string]`
when present and `0` otherwise; `Fin 2` addition is addition mod 2. -/
def CalculateError (bit : Fin 2) (results : Fin 2 → Dist) : ℚ :=
  (results bit).foldl
    (fun error p =>
      let right := p.2
      let wrong := (lookupD (results (bit + 1)) p.1).getD 0
      if wrong > right then error + right
      else if wrong = right then error + 0.5 * right
      else error) 0

/-- The `d = 3` lookup table for encoded bit 0 from the source docstring. -/
def resultD3Bit0 : Dist :=
  [("000", 669/1000), ("001", 1/10), ("010", 1/10), ("100", 1/10),
   ("110", 1/100), ("101", 1/100), ("011", 1/100), ("111", 1/1000)]

/-- The `d = 3` lookup table for encoded bit 1 from the source docstring. -/
def resultD3Bit1 : Dist :=
  [("000", 1/1000), ("001", 1/100), ("010", 1/100), ("100", 1/100),
   ("110", 1/10), ("101", 1/10), ("011", 1/10), ("111", 669/1000)]

/-- The pair of `d = 3` lookup tables from the source docstring. -/
def resultD3 : Fin 2 → Dist
  | 0 => resultD3Bit0
  | 1 => resultD3Bit1

/-- A dictionary in association-list form has no duplicate keys
(true of every list that actually represents a Python dict). -/
def nodupKeys (results : Dist) : Prop :=
  (results.map (fun p => p.1)).Nodup

instance (results : Dist) : Decidable (nodupKeys results) := by
  unfold nodupKeys
  exact inferInstance

/-- The amount one entry `(string, right)` of `results[bit]` adds to the
error total in `CalculateError`, where `other` is `results[(bit+1)%2]`:
`right` on a losing likelihood comparison, `0.5 * right` on a tie,
`0` otherwise. -/
def errorContribution (other : Dist) (p : String × ℚ) : ℚ :=
  let right := p.2
  let wrong := (lookupD other p.1).getD 0
  if wrong > right then right
  else if wrong = right then 0.5 * right
  else 0

lemma calcError_foldl_eq (other : Dist) :
    ∀ (l : List (String × ℚ)) (acc : ℚ),
      l.foldl
        (fun error p =>
          let right := p.2
          let wrong := (lookupD other p.1).getD 0
          if wrong > right then error + right
          else if wrong = right then error + 0.5 * right
          else error) acc
      = acc + (l.map (errorContribution other)).sum
  | [], acc => by simp
  | p :: rest, acc => by
      rw [List.foldl_cons, calcError_foldl_eq other rest, List.map_cons,
        List.sum_cons]
      dsimp only [errorContribution]
      split_ifs <;> ring

/-- `CalculateError` is the sum, over the entries of `results[bit]`, of the
per-string contributions. -/
lemma calculateError_eq_sum (bit : Fin 2) (results : Fin 2 → Dist) :
    CalculateError bit results
      = ((results bit).map (errorContribution (results (bit + 1)))).sum := by
  rw [CalculateError, calcError_foldl_eq, zero_add]

/-- In a dictionary without duplicate keys, every entry is recovered by
lookup on its own key. -/
lemma lookupD_eq_of_mem :
    ∀ {results : Dist}, nodupKeys results →
      ∀ {p : String × ℚ}, p ∈ results → lookupD results p.1 = some p.2
  | [], _, _, hp => by cases hp
  | q :: rest, hnd, p, hp => by
      rcases List.mem_cons.mp hp with h | h
      · subst h
        simp [lookupD]
      · have hne : q.1 ≠ p.1 := by
          intro hq
          have hkeys : (q :: rest).map (fun r => r.1) = q.1 :: rest.map (fun r => r.1) := rfl
          have hnd2 : q.1 ∉ rest.map (fun r => r.1) := by
            have := hnd
            unfold nodupKeys at this
            rw [hkeys] at this
            exact (List.nodup_cons.mp this).1
          exact hnd2 (hq ▸ List.mem_map_of_mem (fun r => r.1) h)
        have hrest : nodupKeys rest := by
          have := hnd
          unfold nodupKeys at this
          exact (List.nodup_cons.mp this).2
        rw [lookupD, if_neg hne]
        exact lookupD_eq_of_mem hrest h

lemma sum_map_half (l : Dist) (f : String × ℚ → ℚ)
    (h : ∀ p ∈ l, f p = 0.5 * p.2) :
    (l.map f).sum = 0.5 * distSum l := by
  induction l with
  | nil => simp [distSum]
  | cons p rest ih =>
      have hrest : ∀ q ∈ rest, f q = 0.5 * q.2 :=
        fun q hq => h q (List.mem_cons_of_mem _ hq)
      simp only [List.map_cons, List.sum_cons, distSum] at *
      rw [h p (List.mem_cons_self _ _), ih hrest]
      ring

lemma errorContribution_nonneg (other : Dist) (p : String × ℚ)
    (h : 0 ≤ p.2) : 0 ≤ errorContribution other p := by
  unfold errorContribution
  dsimp only
  split_ifs with h1 h2
  · exact h
  · linarith
  · exact le_refl 0

lemma errorContribution_le_snd (other : Dist) (p : String × ℚ)
    (h : 0 ≤ p.2) : errorContribution other p ≤ p.2 := by
  unfold errorContribution
  dsimp only
  split_ifs with h1 h2
  · exact le_refl p.2
  · linarith
  · exact h

/-- If every entry of `results[bit]` is a likelihood tie against the other
table, the error is half the mass of `results[bit]`. -/
lemma calculateError_eq_half_aux (results : Fin 2 → Dist) (bit : Fin 2)
    (hnodup : nodupKeys (results bit))
    (hext : ∀ s, lookupD (results bit) s = lookupD (results (bit + 1)) s)
    (hsum : distSum (results bit) = 1) :
    CalculateError bit results = 0.5 := by
  rw [calculateError_eq_sum]
  have hcontrib : ∀ p ∈ results bit,
      errorContribution (results (bit + 1)) p = 0.5 * p.2 := by
    intro p hp
    have hl : lookupD (results (bit + 1)) p.1 = some p.2 := by
      rw [← hext]
      exact lookupD_eq_of_mem hnodup hp
    unfold errorContribution
    rw [hl]
    simp
  rw [sum_map_half _ _ hcontrib, hsum, mul_one]

/-- If the two tables have disjoint support and `results[bit]` has
non-negative values, the error is zero. -/
lemma calculateError_eq_zero_aux (results : Fin 2 → Dist) (bit : Fin 2)
    (hn : ∀ p ∈ results bit, 0 ≤ p.2)
    (hnodup : nodupKeys (results bit))
    (hdisj : ∀ s, (lookupD (results bit) s).getD 0 = 0 ∨
      (lookupD (results (bit + 1)) s).getD 0 = 0) :
    CalculateError bit results = 0 := by
  rw [calculateError_eq_sum]
  apply List.sum_eq_zero
  intro x hx
  rcases List.mem_map.mp hx with ⟨p, hp, rfl⟩
  by_cases hr : p.2 = 0
  · unfold errorContribution
    dsimp only
    split_ifs with h1 h2
    · exact hr
    · rw [hr]; ring
    · rfl
  · have hlook : lookupD (results bit) p.1 = some p.2 :=
      lookupD_eq_of_mem hnodup hp
    have hw : (lookupD (results (bit + 1)) p.1).getD 0 = 0 := by
      rcases hdisj p.1 with h | h
      · rw [hlook] at h
        exact absurd h hr
      · exact h
    unfold errorContribution
    dsimp only
    rw [hw, if_neg (not_lt.mpr (hn p hp)), if_neg (fun h0 => hr h0.symm)]

end RepetitionCode

namespace RepetitionCode

/-- C1: on the concrete `d = 3` lookup tables of the source docstring,
`CalculateError` returns exactly `0.031 = 31/1000` for both encoded bit
values. -/
theorem calculateError_d3_concrete :
    CalculateError 0 resultD3 = 31/1000 ∧ CalculateError 1 resultD3 = 31/1000 := by
  constructor <;>
    (simp only [CalculateError, resultD3, resultD3Bit0, resultD3Bit1, lookupD,
      List.foldl, String.reduceEq, reduceIte, Option.getD_some, Fin.isValue];
     norm_num)

/-- C3: if the two lookup tables agree as mappings (same lookup result on
every string), have no duplicate keys, and each sums to 1, then
`CalculateError` returns exactly `0.5` for both encoded bit values. -/
theorem calculateError_total_ambiguity (results : Fin 2 → Dist)
    (hnd0 : nodupKeys (results 0)) (hnd1 : nodupKeys (results 1))
    (hext : ∀ s, lookupD (results 0) s = lookupD (results 1) s)
    (hsum0 : distSum (results 0) = 1) (hsum1 : distSum (results 1) = 1) :
    CalculateError 0 results = 0.5 ∧ CalculateError 1 results = 0.5 := by
  constructor
  · exact calculateError_eq_half_aux results 0 hnd0
      (by intro s; rw [show (0 : Fin 2) + 1 = 1 from rfl]; exact hext s) hsum0
  · exact calculateError_eq_half_aux results 1 hnd1
      (by intro s; rw [show (1 : Fin 2) + 1 = 0 from rfl]; exact (hext s).symm)
      hsum1

/-- Witness for C3 at a concrete pair of identical tables. -/
theorem calculateError_total_ambiguity_witness :
    CalculateError 0 (fun _ => [("0", 1/2), ("1", 1/2)]) = 0.5 ∧
    CalculateError 1 (fun _ => [("0", 1/2), ("1", 1/2)]) = 0.5 :=
  calculateError_total_ambiguity (fun _ => [("0", 1/2), ("1", 1/2)])
    (by decide) (by decide) (fun _ => rfl)
    (by norm_num [distSum]) (by norm_num [distSum])

/-- C4: if no string has nonzero probability under both tables (disjoint
support), the tables have no duplicate keys and non-negative values, then
`CalculateError` returns exactly `0` for both encoded bit values. -/
theorem calculateError_disjoint_support (results : Fin 2 → Dist)
    (hn0 : ∀ p ∈ results 0, 0 ≤ p.2) (hn1 : ∀ p ∈ results 1, 0 ≤ p.2)
    (hnd0 : nodupKeys (results 0)) (hnd1 : nodupKeys (results 1))
    (hdisj : ∀ s, (lookupD (results 0) s).getD 0 = 0 ∨
      (lookupD (results 1) s).getD 0 = 0) :
    CalculateError 0 results = 0 ∧ CalculateError 1 results = 0 := by
  constructor
  · exact calculateError_eq_zero_aux results 0 hn0 hnd0
      (by intro s; rw [show (0 : Fin 2) + 1 = 1 from rfl]; exact hdisj s)
  · exact calculateError_eq_zero_aux results 1 hn1 hnd1
      (by intro s; rw [show (1 : Fin 2) + 1 = 0 from rfl]; exact (hdisj s).symm)

/-- Witness for C4 at a concrete pair of disjointly supported tables. -/
theorem calculateError_disjoint_support_witness :
    CalculateError 0 (fun b => if b = 0 then [("0", 1)] else [("1", 1)]) = 0 ∧
    CalculateError 1 (fun b => if b = 0 then [("0", 1)] else [("1", 1)]) = 0 :=
  calculateError_disjoint_support _
    (by intro p hp; simp at hp; subst hp; norm_num)
    (by intro p hp; simp at hp; subst hp; norm_num)
    (by decide) (by decide)
    (by
      intro s
      by_cases h : s = "0"
      · right
        subst h
        rfl
      · left
        simp only [reduceIte]
        rw [lookupD, if_neg (fun h0 => h h0.symm)]
        rfl)

/-- C5: for either encoded bit value, if both tables have non-negative
values and the mass of `results[bit]` is at most 1, the value of
`CalculateError` lies in `[0, 1]`. -/
theorem calculateError_mem_unit_interval (bit : Fin 2) (results : Fin 2 → Dist)
    (hn0 : ∀ p ∈ results 0, 0 ≤ p.2) (hn1 : ∀ p ∈ results 1, 0 ≤ p.2)
    (hsum : distSum (results bit) ≤ 1) :
    0 ≤ CalculateError bit results ∧ CalculateError bit results ≤ 1 := by
  have hn : ∀ p ∈ results bit, 0 ≤ p.2 := by
    fin_cases bit
    · exact hn0
    · exact hn1
  rw [calculateError_eq_sum]
  constructor
  · apply List.sum_nonneg
    intro x hx
    rcases List.mem_map.mp hx with ⟨p, hp, rfl⟩
    exact errorContribution_nonneg _ _ (hn p hp)
  · calc ((results bit).map (errorContribution (results (bit + 1)))).sum
        ≤ ((results bit).map (fun p => p.2)).sum := by
          apply List.sum_le_sum
          intro p hp
          exact errorContribution_le_snd _ _ (hn p hp)
      _ ≤ 1 := hsum

/-- Witness for C5 at a concrete well-formed table pair. -/
theorem calculateError_mem_unit_interval_witness :
    0 ≤ CalculateError 0 (fun _ => [("0", 1/2)]) ∧
    CalculateError 0 (fun _ => [("0", 1/2)]) ≤ 1 :=
  calculateError_mem_unit_interval 0 (fun _ => [("0", 1/2)])
    (by intro p hp; simp at hp; subst hp; norm_num)
    (by intro p hp; simp at hp; subst hp; norm_num)
    (by norm_num [distSum])

end RepetitionCode

namespace RepetitionCode

/-- `GetAddress(codeQubit, offset, simulator)` from the source.  Python's
`%` on a positive modulus agrees with `Int.emod`. -/
def GetAddress (codeQubit offset : ℤ) (simulator : Bool) : ℤ :=
  if simulator then 2 * codeQubit + offset else (5 - 2 * codeQubit - offset) % 16

/-- Python string indexing `s[i]`: non-negative indices count from the
left, negative indices wrap from the right.  An out-of-range access
raises IndexError in Python; it is modelled by a placeholder character
(the pipeline only indexes in range). -/
def pyIndex (s : String) (i : ℤ) : Char :=
  let j := if i < 0 then i + s.length else i
  if 0 ≤ j ∧ j < s.length then s.data.getD j.toNat 'X' else 'X'

/-- The `stringFull` computed by the loop in `GetData`: for each code qubit,
append the raw character at its address (read from the right, as
`stringRaw[bitNum - address]` with `bitNum = len(stringRaw) - 1`), and after
every code qubit except the last one, the character of the following
ancilla. -/
def stringFullOf (d : ℕ) (simulator : Bool) (stringRaw : String) : String :=
  let bitNum : ℤ := (stringRaw.length : ℤ) - 1
  (List.range d).foldl
    (fun acc codeQubit =>
      let acc := acc.push
        (pyIndex stringRaw (bitNum - GetAddress codeQubit 0 simulator))
      if codeQubit ≠ d - 1 then
        acc.push (pyIndex stringRaw (bitNum - GetAddress codeQubit 1 simulator))
      else acc) ""

/-- The `stringCode` computed in `GetData`: characters of `stringFull` at
the even positions `2*n` for `n < d`. -/
def stringCodeOf (d : ℕ) (stringFull : String) : String :=
  (List.range d).foldl (fun acc n => acc.push (pyIndex stringFull (2 * (n : ℤ)))) ""

/-- The `stringSingle` computed in `GetData`: the raw character at the
address of the standalone comparison qubit, as a one-character string. -/
def stringSingleOf (d : ℕ) (simulator : Bool) (stringRaw : String) : String :=
  String.mk [pyIndex stringRaw
    (((stringRaw.length : ℤ) - 1) - GetAddress ((d : ℤ) - 1) 1 simulator)]

/-- The accumulation loop of `GetData` for one derived view: every raw
entry adds its probability, via `AddProbToResults`, to the entry of a
fresh dictionary at the remapped key. -/
def accumulate (remap : String → String) (resultsRaw : Dist) : Dist :=
  resultsRaw.foldl (fun acc p => AddProbToResults p.2 (remap p.1) acc) []

/-- The three derived distributions `GetData` builds from one raw
distribution: `resultsFull`, `resultsCode` (computed from the full string)
and `resultsSingle`. -/
def GetDataDists (d : ℕ) (simulator : Bool) (resultsRaw : Dist) :
    Dist × Dist × Dist :=
  (accumulate (fun s => stringFullOf d simulator s) resultsRaw,
   accumulate (fun s => stringCodeOf d (stringFullOf d simulator s)) resultsRaw,
   accumulate (fun s => stringSingleOf d simulator s) resultsRaw)

lemma distSum_addProbToResults (prob : ℚ) (s : String) :
    ∀ res : Dist, distSum (AddProbToResults prob s res) = distSum res + prob
  | [] => by simp [AddProbToResults, distSum]
  | p :: rest => by
      rw [AddProbToResults]
      split_ifs with h
      · simp [distSum]
        ring
      · have ih := distSum_addProbToResults prob s rest
        simp only [distSum, List.map_cons, List.sum_cons] at ih ⊢
        rw [ih]
        ring

lemma distSum_accumulate_aux (remap : String → String) :
    ∀ (raw : Dist) (acc : Dist),
      distSum (raw.foldl (fun a p => AddProbToResults p.2 (remap p.1) a) acc)
        = distSum acc + distSum raw
  | [], acc => by simp [distSum]
  | p :: rest, acc => by
      rw [List.foldl_cons, distSum_accumulate_aux remap rest,
        distSum_addProbToResults]
      simp [distSum]
      ring

lemma distSum_accumulate (remap : String → String) (raw : Dist) :
    distSum (accumulate remap raw) = distSum raw := by
  rw [accumulate, distSum_accumulate_aux]
  simp [distSum]

end RepetitionCode

namespace RepetitionCode

/-- C2: each of the three derived distributions built by `GetData` has
values summing to exactly the total of the raw distribution's values
(conservation of probability mass); in particular a raw total of 1 gives
derived totals of 1. -/
theorem getData_conservation (d : ℕ) (simulator : Bool) (resultsRaw : Dist) :
    distSum (GetDataDists d simulator resultsRaw).1 = distSum resultsRaw ∧
    distSum (GetDataDists d simulator resultsRaw).2.1 = distSum resultsRaw ∧
    distSum (GetDataDists d simulator resultsRaw).2.2 = distSum resultsRaw := by
  refine ⟨?_, ?_, ?_⟩ <;>
    (simp only [GetDataDists]; exact distSum_accumulate _ _)

/-- C10: `AddProbToResults` sets the entry at `string` to its previous
value (0 when absent) plus `prob`, and leaves every other key's lookup
unchanged. -/
theorem addProbToResults_frame (prob : ℚ) (string : String) (results : Dist) :
    lookupD (AddProbToResults prob string results) string
      = some ((lookupD results string).getD 0 + prob) ∧
    ∀ s, s ≠ string →
      lookupD (AddProbToResults prob string results) s = lookupD results s := by
  induction results with
  | nil =>
      constructor
      · simp [AddProbToResults, lookupD]
      · intro s hs
        have hns : ¬ string = s := fun h => hs h.symm
        simp [AddProbToResults, lookupD, hns]
  | cons p rest ih =>
      by_cases h : p.1 = string
      · rw [AddProbToResults, if_pos h]
        constructor
        · simp [lookupD, h]
        · intro s hs
          have hps : ¬ p.1 = s := fun hp => hs ((hp.symm.trans h))
          rw [lookupD, if_neg hps, lookupD, if_neg hps]
      · rw [AddProbToResults, if_neg h]
        constructor
        · rw [lookupD, if_neg h, lookupD, if_neg h]
          exact ih.1
        · intro s hs
          by_cases hps : p.1 = s
          · rw [lookupD, if_pos hps, lookupD, if_pos hps]
          · rw [lookupD, if_neg hps, lookupD, if_neg hps]
            exact ih.2 s hs

/-- Witness for C10 at a concrete update. -/
theorem addProbToResults_frame_witness :
    lookupD (AddProbToResults 1 "a" [("b", 2)]) "a" = some (0 + 1) ∧
    lookupD (AddProbToResults 1 "a" [("b", 2)]) "b" = lookupD [("b", 2)] "b" := by
  constructor
  · rw [(addProbToResults_frame 1 "a" [("b", 2)]).1]
    simp [lookupD]
  · exact (addProbToResults_frame 1 "a" [("b", 2)]).2 "b" (by decide)

end RepetitionCode

namespace RepetitionCode

/-- A Python value as it can appear in `resultsRaw[bit]`: a numeric
probability, a string, or the type object `str` itself (the only value
for which `v is not str` is false). -/
inductive PyVal where
  | num (q : ℚ)
  | strVal (s : String)
  | strType
  deriving DecidableEq

/-- The guard `resultsRaw[bit][stringRaw] is not str` from `GetData`:
Python's `is not` compares object identity against the type object `str`,
so it is false only on the type object itself. -/
def isNotStrGuard : PyVal → Bool
  | PyVal.strType => false
  | _ => true

/-- The numeric content of a stored value (what `+=` adds). -/
def PyVal.toProb : PyVal → ℚ
  | PyVal.num q => q
  | _ => 0

/-- The accumulation loop of `GetData` for one view, with the
`is not str` guard kept, over raw dictionaries holding arbitrary Python
values. -/
def accumulateGuarded (remap : String → String)
    (raw : List (String × PyVal)) : Dist :=
  raw.foldl
    (fun acc p =>
      if isNotStrGuard p.2 then AddProbToResults p.2.toProb (remap p.1) acc
      else acc) []

lemma accumulateGuarded_aux (remap : String → String) :
    ∀ (raw : Dist) (acc : Dist),
      (raw.map (fun p => (p.1, PyVal.num p.2))).foldl
        (fun acc p =>
          if isNotStrGuard p.2 then AddProbToResults p.2.toProb (remap p.1) acc
          else acc) acc
      = raw.foldl (fun a p => AddProbToResults p.2 (remap p.1) a) acc
  | [], _ => rfl
  | p :: rest, acc => by
      rw [List.map_cons, List.foldl_cons, List.foldl_cons]
      exact accumulateGuarded_aux remap rest _

end RepetitionCode

namespace RepetitionCode

/-- C9: the guard `resultsRaw[bit][stringRaw] is not str` is true for
every numeric value and every string value (everything the pipeline can
store), so the guarded accumulation of `GetData` coincides with the same
loop with the guard removed. -/
theorem guard_is_trivial :
    (∀ q : ℚ, isNotStrGuard (PyVal.num q) = true) ∧
    (∀ s : String, isNotStrGuard (PyVal.strVal s) = true) ∧
    (∀ (remap : String → String) (raw : Dist),
      accumulateGuarded remap (raw.map (fun p => (p.1, PyVal.num p.2)))
        = accumulate remap raw) :=
  ⟨fun _ => rfl, fun _ => rfl,
   fun remap raw => accumulateGuarded_aux remap raw []⟩

end RepetitionCode

namespace RepetitionCode

/-- A raw counts dictionary as returned by the backend: bit-string (or
marker) keys mapped to occurrence counts. -/
abbrev Counts : Type := List (String × ℕ)

/-- `'status' in results.keys()` and its negation, on counts. -/
def hasKey (counts : Counts) (key : String) : Bool :=
  counts.any (fun p => p.1 = key)

/-- Key membership on a probability dictionary. -/
def hasKeyD (results : Dist) (key : String) : Bool :=
  results.any (fun p => p.1 = key)

/-- The number of shots used on the backend in `RunRepetition`. -/
def shots : ℕ := 8192

/-- The final conversion in `RunRepetition`: every count is divided by
`shots`, keys unchanged. -/
def toFractions (counts : Counts) : Dist :=
  counts.map (fun p => (p.1, (p.2 : ℚ) / shots))

/-- The `while dataNeeded` loop of `RunRepetition`: the backend is modelled
as the sequence of counts dictionaries its successive executions return;
the loop re-executes while the returned dictionary contains the
incompleteness marker key `'status'`.  `fuel` bounds the number of
executions; `none` means the loop was still retrying. -/
def runUntilData (backend : ℕ → Counts) : ℕ → Option Counts
  | 0 => none
  | fuel + 1 =>
      let results := backend 0
      if hasKey results "status" then
        runUntilData (fun n => backend (n + 1)) fuel
      else some results

/-- The result-producing part of `RunRepetition`: run the job until real
data is obtained, then convert counts to fractions. -/
def RunRepetitionResults (backend : ℕ → Counts) (fuel : ℕ) : Option Dist :=
  (runUntilData backend fuel).map toFractions

lemma hasKeyD_toFractions (c : Counts) (key : String) :
    hasKeyD (toFractions c) key = hasKey c key := by
  unfold hasKeyD hasKey toFractions
  induction c with
  | nil => rfl
  | cons p rest ih => simp only [List.map_cons, List.any_cons, ih]

lemma runUntilData_spec :
    ∀ (fuel : ℕ) (backend : ℕ → Counts) (cts : Counts),
      runUntilData backend fuel = some cts →
      ∃ n, (∀ m, m < n → hasKey (backend m) "status" = true) ∧
        hasKey (backend n) "status" = false ∧ cts = backend n := by
  intro fuel
  induction fuel with
  | zero =>
      intro backend cts h
      simp [runUntilData] at h
  | succ fuel ih =>
      intro backend cts h
      rw [runUntilData] at h
      by_cases hs : hasKey (backend 0) "status" = true
      · rw [if_pos hs] at h
        rcases ih _ _ h with ⟨n, h1, h2, h3⟩
        refine ⟨n + 1, ?_, h2, h3⟩
        intro m hm
        cases m with
        | zero => exact hs
        | succ k => exact h1 k (Nat.succ_lt_succ_iff.mp hm)
      · rw [if_neg hs] at h
        refine ⟨0, ?_, ?_, ?_⟩
        · intro m hm
          exact absurd hm (Nat.not_lt_zero m)
        · exact Bool.eq_false_iff.mpr hs
        · exact (Option.some.inj h).symm

end RepetitionCode

namespace RepetitionCode

/-- C6: whenever the retry loop of `RunRepetition` terminates with a
result, the returned fraction dictionary carries no `'status'` marker, it
is the conversion of the first backend response free of the marker, and
every earlier response (each of which forced a re-execution) did carry
the marker. -/
theorem runRepetition_no_status (backend : ℕ → Counts) (fuel : ℕ) (res : Dist)
    (h : RunRepetitionResults backend fuel = some res) :
    hasKeyD res "status" = false ∧
    ∃ n, (∀ m, m < n → hasKey (backend m) "status" = true) ∧
      hasKey (backend n) "status" = false ∧ res = toFractions (backend n) := by
  rw [RunRepetitionResults] at h
  rcases Option.map_eq_some'.mp h with ⟨cts, hcts, hres⟩
  rcases runUntilData_spec fuel backend cts hcts with ⟨n, h1, h2, h3⟩
  subst hres
  refine ⟨?_, n, h1, h2, by rw [h3]⟩
  rw [hasKeyD_toFractions, h3]
  exact h2

/-- Witness for C6: a backend whose first response is incomplete and whose
second is real data. -/
theorem runRepetition_no_status_witness :
    hasKeyD (toFractions [("0000", 8192)]) "status" = false ∧
    ∃ n, (∀ m, m < n →
        hasKey ((fun i => if i = 0 then [("status", 1)]
          else [("0000", 8192)]) m) "status" = true) ∧
      hasKey ((fun i => if i = 0 then [("status", 1)]
        else [("0000", 8192)]) n) "status" = false ∧
      toFractions [("0000", 8192)]
        = toFractions ((fun i => if i = 0 then [("status", 1)]
            else [("0000", 8192)]) n) :=
  runRepetition_no_status
    (fun i => if i = 0 then [("status", 1)] else [("0000", 8192)]) 2
    (toFractions [("0000", 8192)]) rfl

end RepetitionCode

namespace RepetitionCode

/-- The running-mean accumulation of the driver loop for one code distance
and one (view, bit) pair: starting from `0`, each trial's error value `e`
adds `e / totalRuns`. -/
def runningMean (totalRuns : ℕ) (errors : List ℚ) : ℚ :=
  errors.foldl (fun acc e => acc + e / (totalRuns : ℚ)) 0

/-- The variance accumulator of the driver loop: each trial adds
`e ** 2 / totalRuns`, and after all trials the square of the finalized
mean is subtracted. -/
def runningVar (totalRuns : ℕ) (errors : List ℚ) : ℚ :=
  errors.foldl (fun acc e => acc + e ^ 2 / (totalRuns : ℚ)) 0
    - runningMean totalRuns errors ^ 2

lemma foldl_add_div (c : ℚ) (f : ℚ → ℚ) :
    ∀ (l : List ℚ) (acc : ℚ),
      l.foldl (fun a e => a + f e / c) acc = acc + (l.map f).sum / c
  | [], acc => by simp
  | e :: rest, acc => by
      rw [List.foldl_cons, foldl_add_div c f rest, List.map_cons,
        List.sum_cons, add_div]
      ring

end RepetitionCode

namespace RepetitionCode

/-- C8: for the trials `e_1 .. e_n` of one code distance and one
(view, bit) pair (so `totalRuns = n`), the finalized mean accumulator is
the arithmetic mean, the finalized variance accumulator is the population
variance `mean(e^2) - mean(e)^2`, and both are invariant under reordering
of the trials. -/
theorem aggregation_correct (totalRuns : ℕ) (errors : List ℚ)
    (h : errors.length = totalRuns) :
    runningMean totalRuns errors = errors.sum / errors.length ∧
    runningVar totalRuns errors
      = (errors.map (fun e => e ^ 2)).sum / errors.length
        - (errors.sum / errors.length) ^ 2 ∧
    ∀ errors2, errors.Perm errors2 →
      runningMean totalRuns errors2 = runningMean totalRuns errors ∧
      runningVar totalRuns errors2 = runningVar totalRuns errors := by
  subst h
  have hmean : ∀ l : List ℚ, runningMean errors.length l = l.sum / errors.length := by
    intro l
    rw [runningMean, foldl_add_div ((errors.length : ℚ)) (fun e => e), zero_add,
      List.map_id']
  have hvar : ∀ l : List ℚ, runningVar errors.length l
      = (l.map (fun e => e ^ 2)).sum / errors.length
        - (l.sum / errors.length) ^ 2 := by
    intro l
    rw [runningVar, foldl_add_div ((errors.length : ℚ)) (fun e => e ^ 2),
      zero_add, hmean]
  refine ⟨hmean errors, hvar errors, ?_⟩
  intro errors2 hperm
  have hsum : errors2.sum = errors.sum := hperm.symm.sum_eq
  have hsq : (errors2.map (fun e => e ^ 2)).sum
      = (errors.map (fun e => e ^ 2)).sum := (hperm.symm.map _).sum_eq
  constructor
  · rw [hmean errors2, hmean errors, hsum]
  · rw [hvar errors2, hvar errors, hsum, hsq]

/-- Witness for C8 at a concrete list of three trials. -/
theorem aggregation_correct_witness :
    runningMean 3 [1, 2, 3] = ([1, 2, 3] : List ℚ).sum / ([1, 2, 3] : List ℚ).length ∧
    runningVar 3 [1, 2, 3]
      = (([1, 2, 3] : List ℚ).map (fun e => e ^ 2)).sum / ([1, 2, 3] : List ℚ).length
        - (([1, 2, 3] : List ℚ).sum / ([1, 2, 3] : List ℚ).length) ^ 2 ∧
    ∀ errors2, ([1, 2, 3] : List ℚ).Perm errors2 →
      runningMean 3 errors2 = runningMean 3 [1, 2, 3] ∧
      runningVar 3 errors2 = runningVar 3 [1, 2, 3] :=
  aggregation_correct 3 [1, 2, 3] rfl

end RepetitionCode

namespace RepetitionCode

/-- A gate-level operation placed on the circuit before job submission.
`u3` carries the rotation fraction (the multiple of pi used by
`AddError`). -/
inductive Gate where
  | x (a : ℤ)
  | u3 (frac : ℚ) (a : ℤ)
  | cx (control target : ℤ)
  | h (a : ℤ)
  | barrier
  | measure (a : ℤ)
  deriving DecidableEq

/-- The register addresses a gate touches (`q[address]` in the source). -/
def gateAddresses : Gate → List ℤ
  | Gate.x a => [a]
  | Gate.u3 _ a => [a]
  | Gate.cx c t => [c, t]
  | Gate.h a => [a]
  | Gate.barrier => []
  | Gate.measure a => [a]

/-- Append a gate to a circuit under construction.  Register indexing
`q[a]` fails (IndexError) unless `0 ≤ a < num`, where `num` is the
register size declared in `RunRepetition`; a failure anywhere before
submission aborts the run, modelled by `none`. -/
def appendGate (num : ℤ) (c : Option (List Gate)) (g : Gate) : Option (List Gate) :=
  c.bind fun gs =>
    if (gateAddresses g).all (fun a => 0 ≤ a ∧ a < num) then some (gs ++ [g])
    else none

/-- The hard-coded `coupling_map` dictionary of `AddCnot`; `none` models a
KeyError on a qubit address outside `0..15`. -/
def coupling_map (a : ℤ) : Option (List ℤ) :=
  if a = 0 then some [1]
  else if a = 1 then some [2]
  else if a = 2 then some [3]
  else if a = 3 then some [14]
  else if a = 4 then some [3, 5]
  else if a = 5 then some []
  else if a = 6 then some [7, 11]
  else if a = 7 then some [10]
  else if a = 8 then some [7]
  else if a = 9 then some [10, 8]
  else if a = 10 then some []
  else if a = 11 then some [10]
  else if a = 12 then some [5, 11, 13]
  else if a = 13 then some [4, 14]
  else if a = 14 then some []
  else if a = 15 then some [0, 14]
  else none

/-- `AddCnot(script, q, control, target, simulator)` from the source.
Python evaluates `target in coupling_map[control]` before the `or`, so
the lookup of `control` happens (and can fail) even on a simulator.  If
neither direction is couplable the source only prints a message and adds
nothing. -/
def AddCnot (num : ℤ) (c : Option (List Gate)) (control target : ℤ)
    (simulator : Bool) : Option (List Gate) :=
  c.bind fun gs =>
    match coupling_map control with
    | none => none
    | some lc =>
        if target ∈ lc ∨ simulator = true then
          appendGate num (some gs) (Gate.cx control target)
        else
          match coupling_map target with
          | none => none
          | some lt =>
              if control ∈ lt then
                appendGate num
                  (appendGate num
                    (appendGate num
                      (appendGate num
                        (appendGate num (some gs) (Gate.h control))
                        (Gate.h target))
                      (Gate.cx target control))
                    (Gate.h control))
                  (Gate.h target)
              else some gs

/-- Python `range(start, stop, 2)` over integers. -/
def pyRangeStep2 (start stop : ℤ) : List ℤ :=
  (List.range (if stop ≤ start then 0 else ((stop - start + 1) / 2).toNat)).map
    (fun k => start + 2 * (k : ℤ))

/-- `AddError(script, q, num, simulator, bit)` from the source: on a
simulator, `u3` error rotations on code qubits (even addresses), ancilla
qubits (odd addresses) and the single comparison qubit at `num-1`,
followed by a barrier; on the real device, nothing. -/
def AddError (num : ℤ) (simulator : Bool) (bit : ℕ)
    (c : Option (List Gate)) : Option (List Gate) :=
  let fracAncilla : ℚ := 0.05
  let fracCode : ℚ := if bit = 1 then fracAncilla * 2 else fracAncilla
  if simulator then
    let c1 := (pyRangeStep2 0 (num - 1)).foldl
      (fun c a => appendGate num c (Gate.u3 fracCode a)) c
    let c2 := (pyRangeStep2 1 (num - 1)).foldl
      (fun c a => appendGate num c (Gate.u3 fracAncilla a)) c1
    let c3 := appendGate num c2 (Gate.u3 fracCode (num - 1))
    appendGate num c3 Gate.barrier
  else c

/-- The whole gate-placement phase of `RunRepetition(bit, d, device)` --
everything between circuit creation and the call that submits the job.
`none` means some operation failed before any execution was attempted;
`some gates` means construction completed and the job is submitted. -/
def buildRepetitionCircuit (bit : ℕ) (d : ℕ) (simulator : Bool) :
    Option (List Gate) :=
  let num : ℤ := if simulator then 2 * (d : ℤ) else 16
  let c0 : Option (List Gate) := some []
  let c1 :=
    if bit = 1 then
      let cInit := (List.range d).foldl
        (fun c cq => appendGate num c (Gate.x (GetAddress (cq : ℤ) 0 simulator))) c0
      appendGate num cInit (Gate.x (GetAddress ((d : ℤ) - 1) 1 simulator))
    else c0
  let c2 := appendGate num c1 Gate.barrier
  let c3 := AddError num simulator bit c2
  let c4 := (List.range (d - 1)).foldl
    (fun c cq => AddCnot num c (GetAddress (cq : ℤ) 0 simulator)
      (GetAddress (cq : ℤ) 1 simulator) simulator) c3
  let c5 := appendGate num c4 Gate.barrier
  let c6 := AddError num simulator bit c5
  let c7 := ((List.range (d - 1)).map (fun k => (k : ℤ) + 1)).foldl
    (fun c cq => AddCnot num c (GetAddress cq 0 simulator)
      (GetAddress cq (-1) simulator) simulator) c6
  let c8 := appendGate num c7 Gate.barrier
  let c9 := AddError num simulator bit c8
  (List.range num.toNat).foldl
    (fun c a => appendGate num c (Gate.measure (a : ℤ))) c9

/-- `RunRepetition`'s pre-submission phase as a function of the `device`
argument: `simulator = (device != 'ibmqx3')`. -/
def RunRepetitionCircuit (bit : ℕ) (d : ℕ) (device : String) :
    Option (List Gate) :=
  buildRepetitionCircuit bit d (device != "ibmqx3")

lemma buildRepetitionCircuit_bit_ne_one (bit : ℕ) (d : ℕ) (sim : Bool)
    (hb : bit ≠ 1) :
    buildRepetitionCircuit bit d sim = buildRepetitionCircuit 0 d sim := by
  unfold buildRepetitionCircuit AddError
  simp only [if_neg hb, if_neg (by norm_num : ¬ (0 : ℕ) = 1)]

end RepetitionCode

namespace RepetitionCode

/-- C7 is false of the code: the pipeline performs no validation of the
code distance.  The claim, formalized as `construction fails (before any
submission) whenever d < 2`, is refuted at `d = 1`: for both the
simulator and the real-device path the circuit is built completely, so a
job is submitted. -/
theorem distance_validation_counterexample :
    ¬ (∀ d : ℕ, d < 2 → ∀ (bit : ℕ) (device : String),
        RunRepetitionCircuit bit d device = none) := by
  intro hclaim
  have h1 := hclaim 1 (by norm_num) 0 "ibmqx_qasm_simulator"
  have h2 : (RunRepetitionCircuit 0 1 "ibmqx_qasm_simulator").isSome = true := rfl
  rw [h1] at h2
  simp at h2

/-- C7 amended: no distance validation exists; at the invalid distance
`d = 1` the gate-placement phase of `RunRepetition` completes for every
stored-bit value and every device, and the job is therefore submitted. -/
theorem no_distance_validation (bit : ℕ) (device : String) :
    (RunRepetitionCircuit bit 1 device).isSome = true := by
  rw [RunRepetitionCircuit]
  rcases eq_or_ne bit 1 with hb | hb
  · subst hb
    rcases Bool.eq_false_or_eq_true (device != "ibmqx3") with hdev | hdev <;>
      rw [hdev] <;> rfl
  · rw [buildRepetitionCircuit_bit_ne_one bit 1 _ hb]
    rcases Bool.eq_false_or_eq_true (device != "ibmqx3") with hdev | hdev <;>
      rw [hdev] <;> rfl

end RepetitionCode
